import Mathlib

/-!
Verification of the EEGformer model implementation (`models.py`).

The numerical pipeline is shallowly embedded over the rationals `ℚ`.
Tensors are modelled as curried index functions `ℕ → ⋯ → ℕ → ℚ` with their
extents carried separately; the float transcendental routines that the code
calls (`math.sqrt`, `erfinv`, GELU, `exp` inside softmax) enter the model as
explicit function or scalar parameters, so every theorem below holds for the
actual routines in particular.
-/

/-! ## Sequential in-place accumulation (RTM line 136-137, STM 196-197, TTM 270-271)

The Python loop `for subj in range(1, bound): imv[subj] = imv[subj] + imv[subj-1]`
updates the sequence axis in place, left to right.  `seqAccumN v n` is the state
of the vector after the iterations `subj = 1, …, n`; the loop as written runs
`n = bound - 1` iterations. -/

def accStep (w : ℕ → ℚ) (p : ℕ) : ℕ → ℚ :=
  fun q => if q = p then w p + w (p - 1) else w q

def seqAccumN (v : ℕ → ℚ) : ℕ → (ℕ → ℚ)
  | 0 => v
  | n + 1 => accStep (seqAccumN v n) (n + 1)

def seqAccum (bound : ℕ) (v : ℕ → ℚ) : ℕ → ℚ :=
  seqAccumN v (bound - 1)

lemma seqAccumN_apply (v : ℕ → ℚ) :
    ∀ n q, seqAccumN v n q =
      if 1 ≤ q ∧ q ≤ n then ∑ t in Finset.range (q + 1), v t else v q := by
  intro n
  induction n with
  | zero =>
    intro q
    have h : ¬(1 ≤ q ∧ q ≤ 0) := by omega
    show v q = _
    rw [if_neg h]
  | succ n ih =>
    intro q
    by_cases hq : q = n + 1
    · subst hq
      have h1 : seqAccumN v n (n + 1) = v (n + 1) := by
        rw [ih, if_neg]
        omega
      have h0 : seqAccumN v n (n + 1 - 1) = ∑ t in Finset.range (n + 1), v t := by
        have hn1 : n + 1 - 1 = n := by omega
        rw [hn1, ih]
        rcases Nat.eq_zero_or_pos n with hn | hn
        · subst hn
          rw [if_neg (by omega), Finset.sum_range_one]
        · rw [if_pos (by omega)]
      have key : seqAccumN v (n + 1) (n + 1)
          = v (n + 1) + ∑ t in Finset.range (n + 1), v t := by
        have hsp : seqAccumN v (n + 1) (n + 1)
            = seqAccumN v n (n + 1) + seqAccumN v n (n + 1 - 1) := by
          simp only [seqAccumN, accStep, if_pos rfl, eq_self_iff_true, if_true]
        rw [hsp, h1, h0]
      rw [key, if_pos (by omega), Finset.sum_range_succ v (n + 1)]
      exact add_comm _ _
    · have hstep : seqAccumN v (n + 1) q = seqAccumN v n q := by
        simp only [seqAccumN, accStep, if_neg hq]
      rw [hstep, ih]
      by_cases hc : 1 ≤ q ∧ q ≤ n
      · rw [if_pos hc, if_pos (by omega)]
      · rw [if_neg hc, if_neg (by omega)]

lemma seqAccum_apply (bound : ℕ) (v : ℕ → ℚ) (q : ℕ) :
    seqAccum bound v q =
      if 1 ≤ q ∧ q ≤ bound - 1 then ∑ t in Finset.range (q + 1), v t else v q := by
  unfold seqAccum
  exact seqAccumN_apply v (bound - 1) q

/-! ## Per-block attention tensors shared by RTM and STM

`qkvT` is `torch.einsum('xhdm,ijm -> xijhd', Wqkv[a], lnorm(savespace))`
(RTM line 127, STM line 188); `rsaT` is the attention-score einsum
`'ijhd,ijhd -> ijh'` applied to `qkv[a,0]/math.sqrt(Dh)` and `qkv[a,1]`
(RTM line 130, STM line 191); `imvT` is the intermediate-vector einsum
`'ijh,ijhd -> ijhd'` (RTM line 133, STM line 194); `imvAccT` is the in-place
accumulation loop along the sequence axis `j` (RTM lines 136-137 with bound
`inputshape[0]`, STM lines 196-197 with bound `x.shape[0]`).  The scalar `sq`
stands for the float value `math.sqrt(Dh)`. -/

def qkvT (D : ℕ) (W : ℕ → ℕ → ℕ → ℕ → ℚ) (y : ℕ → ℕ → ℕ → ℚ) :
    ℕ → ℕ → ℕ → ℕ → ℕ → ℚ :=
  fun x i j h d => ∑ m in Finset.range D, W x h d m * y i j m

def rsaT (Dh : ℕ) (sq : ℚ) (qkv : ℕ → ℕ → ℕ → ℕ → ℕ → ℚ) : ℕ → ℕ → ℕ → ℚ :=
  fun i j h => ∑ d in Finset.range Dh, qkv 0 i j h d / sq * qkv 1 i j h d

def imvT (D Dh : ℕ) (sq : ℚ) (W : ℕ → ℕ → ℕ → ℕ → ℚ) (y : ℕ → ℕ → ℕ → ℚ) :
    ℕ → ℕ → ℕ → ℕ → ℚ :=
  fun i j h d => rsaT Dh sq (qkvT D W y) i j h * qkvT D W y 2 i j h d

def imvAccT (bound : ℕ) (imv : ℕ → ℕ → ℕ → ℕ → ℚ) : ℕ → ℕ → ℕ → ℕ → ℚ :=
  fun i j h d => seqAccum bound (fun t => imv i t h d) j

/-! ## Per-block attention tensors of TTM (one-dimensional token axis)

Same einsums with the single token index `i` (TTM lines 262, 265, 268) and the
accumulation loop with bound `self.avgf` (lines 270-271). -/

def qkvT1 (D : ℕ) (W : ℕ → ℕ → ℕ → ℕ → ℚ) (y : ℕ → ℕ → ℚ) :
    ℕ → ℕ → ℕ → ℕ → ℚ :=
  fun x i h d => ∑ m in Finset.range D, W x h d m * y i m

def rsaT1 (Dh : ℕ) (sq : ℚ) (qkv : ℕ → ℕ → ℕ → ℕ → ℚ) : ℕ → ℕ → ℚ :=
  fun i h => ∑ d in Finset.range Dh, qkv 0 i h d / sq * qkv 1 i h d

def imvT1 (D Dh : ℕ) (sq : ℚ) (W : ℕ → ℕ → ℕ → ℕ → ℚ) (y : ℕ → ℕ → ℚ) :
    ℕ → ℕ → ℕ → ℚ :=
  fun i h d => rsaT1 Dh sq (qkvT1 D W y) i h * qkvT1 D W y 2 i h d

def imvAccT1 (bound : ℕ) (imv : ℕ → ℕ → ℕ → ℚ) : ℕ → ℕ → ℕ → ℚ :=
  fun i h d => seqAccum bound (fun t => imv t h d) i

/-- Constant tensors used to instantiate theorems on concrete inputs. -/
def oneW : ℕ → ℕ → ℕ → ℕ → ℚ := fun _ _ _ _ => 1

def oneY : ℕ → ℕ → ℕ → ℚ := fun _ _ _ => 1

def oneZ : ℕ → ℕ → ℚ := fun _ _ => 1

/-- Claim C1 (amended): in each attention block of RTM, STM and TTM the running
prefix-sum over the intermediate vectors targets the sequence positions
`1 … L-2` only, where `L = bound + 1` is the sequence length including the
prepended aggregate token (`bound` is the loop bound: `inputshape[0]` in RTM,
`x.shape[0]` in STM, `avgf` in TTM).  For those positions the result is the
left-to-right prefix sum with position 0 as base; position 0 is never a target,
and — correcting the claim — the final position `L-1 = bound` is never a
target either: it keeps its un-accumulated intermediate vector. -/
theorem c1_accumulation_amended (D Dh bound : ℕ) (sq : ℚ)
    (W : ℕ → ℕ → ℕ → ℕ → ℚ) (y : ℕ → ℕ → ℕ → ℚ) (z : ℕ → ℕ → ℚ)
    (i h d p : ℕ) (hp1 : 1 ≤ p) (hpb : p ≤ bound - 1) :
    imvAccT bound (imvT D Dh sq W y) i p h d
        = ∑ t in Finset.range (p + 1), imvT D Dh sq W y i t h d
    ∧ imvAccT bound (imvT D Dh sq W y) i 0 h d = imvT D Dh sq W y i 0 h d
    ∧ imvAccT bound (imvT D Dh sq W y) i bound h d = imvT D Dh sq W y i bound h d
    ∧ imvAccT1 bound (imvT1 D Dh sq W z) p h d
        = ∑ t in Finset.range (p + 1), imvT1 D Dh sq W z t h d
    ∧ imvAccT1 bound (imvT1 D Dh sq W z) 0 h d = imvT1 D Dh sq W z 0 h d
    ∧ imvAccT1 bound (imvT1 D Dh sq W z) bound h d = imvT1 D Dh sq W z bound h d := by
  refine ⟨?_, ?_, ?_, ?_, ?_, ?_⟩
  · show seqAccum bound _ p = _
    rw [seqAccum_apply, if_pos ⟨hp1, hpb⟩]
  · show seqAccum bound _ 0 = _
    rw [seqAccum_apply, if_neg (by omega)]
  · show seqAccum bound _ bound = _
    rw [seqAccum_apply, if_neg (by omega)]
  · show seqAccum bound _ p = _
    rw [seqAccum_apply, if_pos ⟨hp1, hpb⟩]
  · show seqAccum bound _ 0 = _
    rw [seqAccum_apply, if_neg (by omega)]
  · show seqAccum bound _ bound = _
    rw [seqAccum_apply, if_neg (by omega)]

/-- Witness for `c1_accumulation_amended` at the concrete instance
`D = Dh = 1`, `bound = 2`, `sq = 1`, all-ones weights and inputs, `p = 1`. -/
theorem c1_accumulation_witness :
    ((1 : ℕ) ≤ 1 ∧ (1 : ℕ) ≤ 2 - 1)
    ∧ (imvAccT 2 (imvT 1 1 1 oneW oneY) 0 1 0 0
          = ∑ t in Finset.range (1 + 1), imvT 1 1 1 oneW oneY 0 t 0 0
        ∧ imvAccT 2 (imvT 1 1 1 oneW oneY) 0 0 0 0 = imvT 1 1 1 oneW oneY 0 0 0 0
        ∧ imvAccT 2 (imvT 1 1 1 oneW oneY) 0 2 0 0 = imvT 1 1 1 oneW oneY 0 2 0 0
        ∧ imvAccT1 2 (imvT1 1 1 1 oneW oneZ) 1 0 0
          = ∑ t in Finset.range (1 + 1), imvT1 1 1 1 oneW oneZ t 0 0
        ∧ imvAccT1 2 (imvT1 1 1 1 oneW oneZ) 0 0 0 = imvT1 1 1 1 oneW oneZ 0 0 0
        ∧ imvAccT1 2 (imvT1 1 1 1 oneW oneZ) 2 0 0 = imvT1 1 1 1 oneW oneZ 2 0 0) :=
  ⟨⟨by decide, by decide⟩,
    c1_accumulation_amended 1 1 2 1 oneW oneY oneZ 0 0 0 1 (by decide) (by decide)⟩

/-- Counterexample to claim C1 as stated: with `bound = 1` the sequence length
including the aggregate token is `L = 2`, and the claim demands that position
`p = L - 1 = 1` receive the accumulated value `imv 1 + imv 0`.  The loop
`range(1, bound)` is empty, so position 1 keeps its original value `1 ≠ 2`. -/
theorem c1_accumulation_cex :
    imvAccT 1 (imvT 1 1 1 oneW oneY) 0 1 0 0
      ≠ imvT 1 1 1 oneW oneY 0 1 0 0 + imvT 1 1 1 oneW oneY 0 0 0 0 := by
  have hq : ∀ x i j h d : ℕ, qkvT 1 oneW oneY x i j h d = 1 := by
    intro x i j h d
    simp [qkvT, oneW, oneY]
  have him : ∀ i j h d : ℕ, imvT 1 1 1 oneW oneY i j h d = 1 := by
    intro i j h d
    simp [imvT, rsaT, hq]
  have hacc : imvAccT 1 (imvT 1 1 1 oneW oneY) 0 1 0 0 = 1 := by
    show seqAccum 1 _ 1 = 1
    rw [seqAccum_apply, if_neg (by omega)]
    exact him 0 1 0 0
  rw [hacc, him 0 1 0 0, him 0 0 0 0]
  norm_num

/-- Claim C4: in every attention block of all three attention components the
attention score at `(outer, position, head)` is the dot product of the query
and key vectors of that same position, scaled by `1 / sq` where `sq` stands for
`math.sqrt(Dh)` — together with the locality fact that makes "not pairwise"
precise: the score at a position depends only on the normalized input at that
same position (inputs agreeing there yield the same score, whatever they do at
other positions). -/
theorem c4_attention_score (D Dh : ℕ) (sq : ℚ)
    (W : ℕ → ℕ → ℕ → ℕ → ℚ) (y yb : ℕ → ℕ → ℕ → ℚ) (z zb : ℕ → ℕ → ℚ)
    (i j h : ℕ)
    (hy : ∀ m, m < D → y i j m = yb i j m)
    (hz : ∀ m, m < D → z i m = zb i m) :
    rsaT Dh sq (qkvT D W y) i j h
        = (∑ d in Finset.range Dh, qkvT D W y 0 i j h d * qkvT D W y 1 i j h d) / sq
    ∧ rsaT Dh sq (qkvT D W yb) i j h = rsaT Dh sq (qkvT D W y) i j h
    ∧ rsaT1 Dh sq (qkvT1 D W z) i h
        = (∑ d in Finset.range Dh, qkvT1 D W z 0 i h d * qkvT1 D W z 1 i h d) / sq
    ∧ rsaT1 Dh sq (qkvT1 D W zb) i h = rsaT1 Dh sq (qkvT1 D W z) i h := by
  have hq : ∀ x d, qkvT D W yb x i j h d = qkvT D W y x i j h d := by
    intro x d
    unfold qkvT
    refine Finset.sum_congr rfl ?_
    intro m hm
    rw [hy m (Finset.mem_range.mp hm)]
  have hq1 : ∀ x d, qkvT1 D W zb x i h d = qkvT1 D W z x i h d := by
    intro x d
    unfold qkvT1
    refine Finset.sum_congr rfl ?_
    intro m hm
    rw [hz m (Finset.mem_range.mp hm)]
  refine ⟨?_, ?_, ?_, ?_⟩
  · unfold rsaT
    rw [Finset.sum_div]
    refine Finset.sum_congr rfl ?_
    intro d _
    rw [div_mul_eq_mul_div]
  · unfold rsaT
    refine Finset.sum_congr rfl ?_
    intro d _
    rw [hq 0 d, hq 1 d]
  · unfold rsaT1
    rw [Finset.sum_div]
    refine Finset.sum_congr rfl ?_
    intro d _
    rw [div_mul_eq_mul_div]
  · unfold rsaT1
    refine Finset.sum_congr rfl ?_
    intro d _
    rw [hq1 0 d, hq1 1 d]

/-- Witness for `c4_attention_score` at a concrete all-ones instance. -/
theorem c4_attention_score_witness :
    rsaT 1 1 (qkvT 1 oneW oneY) 0 0 0
        = (∑ d in Finset.range 1,
            qkvT 1 oneW oneY 0 0 0 0 d * qkvT 1 oneW oneY 1 0 0 0 d) / 1
    ∧ rsaT 1 1 (qkvT 1 oneW oneY) 0 0 0 = rsaT 1 1 (qkvT 1 oneW oneY) 0 0 0
    ∧ rsaT1 1 1 (qkvT1 1 oneW oneZ) 0 0
        = (∑ d in Finset.range 1,
            qkvT1 1 oneW oneZ 0 0 0 d * qkvT1 1 oneW oneZ 1 0 0 d) / 1
    ∧ rsaT1 1 1 (qkvT1 1 oneW oneZ) 0 0 = rsaT1 1 1 (qkvT1 1 oneW oneZ) 0 0 :=
  c4_attention_score 1 1 1 oneW oneY oneY oneZ oneZ 0 0 0
    (fun _ _ => rfl) (fun _ _ => rfl)

/-! ## TTM segment averaging (lines 243-248)

`inputc[i] = (sum of input[j] for j in the i-th block of seg rows) / seg`,
where `seg = int(input.shape[0] / avgf)`; under the divisibility invariant
checked at line 216 the float index arithmetic coincides with the natural
number arithmetic used here. -/

def ttmSegAvg (seg : ℕ) (v : ℕ → ℕ → ℕ → ℚ) : ℕ → ℕ → ℕ → ℚ :=
  fun i s c => (∑ j in Finset.Ico (i * seg) ((i + 1) * seg), v j s c) / (seg : ℚ)

/-- Claim C5: when the time-axis length `T` is divisible by the segment count
`M` (so each segment holds `seg = T / M` entries) and every entry of segment
`i` equals the constant `ci`, the `i`-th averaged segment value computed by the
segment-averaging step equals exactly `ci`. -/
theorem c5_segment_mean (T M i s c : ℕ) (v : ℕ → ℕ → ℕ → ℚ) (ci : ℚ)
    (_hdvd : M ∣ T) (hseg : 0 < T / M)
    (hconst : ∀ j, i * (T / M) ≤ j → j < (i + 1) * (T / M) → v j s c = ci) :
    ttmSegAvg (T / M) v i s c = ci := by
  unfold ttmSegAvg
  have h1 : ∀ j ∈ Finset.Ico (i * (T / M)) ((i + 1) * (T / M)), v j s c = ci := by
    intro j hj
    rcases Finset.mem_Ico.mp hj with ⟨hj1, hj2⟩
    exact hconst j hj1 hj2
  rw [Finset.sum_congr rfl h1, Finset.sum_const, Nat.card_Ico]
  have hcard : (i + 1) * (T / M) - i * (T / M) = T / M := by
    rw [Nat.succ_mul]
    omega
  rw [hcard, nsmul_eq_mul]
  exact mul_div_cancel_left₀ ci (Nat.cast_ne_zero.mpr (by omega))

/-- Witness for `c5_segment_mean` with `T = 2`, `M = 2`, all-ones input. -/
theorem c5_segment_mean_witness :
    ((2 : ℕ) ∣ 2 ∧ 0 < 2 / 2) ∧ ttmSegAvg (2 / 2) oneY 0 0 0 = 1 :=
  ⟨⟨by decide, by decide⟩,
    c5_segment_mean 2 2 0 0 0 oneY 1 (by decide) (by decide) (fun _ _ _ => rfl)⟩

/-! ## trunc_normal (lines 12-36)

The tensor contents after `tensor.uniform_(2*l-1, 2*u-1)` are the external
random draws `raws`; `erfinvF` stands for the float `torch.erfinv` routine and
`sqrt2` for the float value `math.sqrt(2.)`.  The subsequent in-place steps
`erfinv; mul(std*sqrt2); add(mean); clamp(a, b)` are `truncNormalFill`; the
mean-outside-bounds condition at line 16 only prints, which `truncNormalRun`
records as a boolean flag next to the (always produced) filled tensor. -/

def clampQ (a b x : ℚ) : ℚ := min (max x a) b

def truncNormalWarn (mean std a b : ℚ) : Bool :=
  decide (mean < a - 2 * std) || decide (b + 2 * std < mean)

def truncNormalFill (erfinvF : ℚ → ℚ) (sqrt2 mean std a b : ℚ)
    (raws : List ℚ) : List ℚ :=
  raws.map fun r => clampQ a b (erfinvF r * (std * sqrt2) + mean)

def truncNormalRun (erfinvF : ℚ → ℚ) (sqrt2 mean std a b : ℚ)
    (raws : List ℚ) : Bool × List ℚ :=
  (truncNormalWarn mean std a b, truncNormalFill erfinvF sqrt2 mean std a b raws)

/-- Claim C7: for every tensor and parameters with `a ≤ b`, after `trunc_normal`
fills the tensor every element lies in `[a, b]`; the filled tensor has the same
number of entries; it is produced unconditionally (independently of the warning
flag); and the flag is raised exactly for the mean-far-outside-bounds condition,
never blocking the fill. -/
theorem c7_trunc_normal_clamp (erfinvF : ℚ → ℚ) (sqrt2 mean std a b : ℚ)
    (raws : List ℚ) (hab : a ≤ b) :
    (∀ x ∈ (truncNormalRun erfinvF sqrt2 mean std a b raws).2, a ≤ x ∧ x ≤ b)
    ∧ (truncNormalRun erfinvF sqrt2 mean std a b raws).2.length = raws.length
    ∧ (truncNormalRun erfinvF sqrt2 mean std a b raws).2
        = truncNormalFill erfinvF sqrt2 mean std a b raws
    ∧ ((truncNormalRun erfinvF sqrt2 mean std a b raws).1 = true
        ↔ (mean < a - 2 * std ∨ b + 2 * std < mean)) := by
  refine ⟨?_, ?_, rfl, ?_⟩
  · intro x hx
    simp only [truncNormalRun, truncNormalFill, List.mem_map] at hx
    rcases hx with ⟨r, -, hr⟩
    rw [← hr]
    exact ⟨le_min (le_max_right _ _) hab, min_le_right _ _⟩
  · simp only [truncNormalRun, truncNormalFill, List.length_map]
  · simp only [truncNormalRun, truncNormalWarn, Bool.or_eq_true, decide_eq_true_eq]

/-- Witness for `c7_trunc_normal_clamp` with identity `erfinv`, `sqrt2 = 1`,
`mean = 0`, `std = 1`, bounds `[0, 2]` and the single raw draw `5`. -/
theorem c7_trunc_normal_witness :
    (0 : ℚ) ≤ 2
    ∧ ((∀ x ∈ (truncNormalRun (fun r => r) 1 0 1 0 2 [5]).2, (0 : ℚ) ≤ x ∧ x ≤ 2)
      ∧ (truncNormalRun (fun r => r) 1 0 1 0 2 [5]).2.length = ([5] : List ℚ).length
      ∧ (truncNormalRun (fun r => r) 1 0 1 0 2 [5]).2
          = truncNormalFill (fun r => r) 1 0 1 0 2 [5]
      ∧ ((truncNormalRun (fun r => r) 1 0 1 0 2 [5]).1 = true
          ↔ ((0 : ℚ) < 0 - 2 * 1 ∨ (2 : ℚ) + 2 * 1 < 0))) :=
  ⟨by norm_num, c7_trunc_normal_clamp (fun r => r) 1 0 1 0 2 [5] (by norm_num)⟩

/-! ## Weighted BCE loss (lines 374-379)

`w0 = numtot / (2 * (numtot - numpos))` and `w1 = numtot / (2 * numpos)` are
computed with no guard on the divisors. -/

def bcelossW_w0 (numpos numtot : ℚ) : ℚ := numtot / (2 * (numtot - numpos))

def bcelossW_w1 (numpos numtot : ℚ) : ℚ := numtot / (2 * numpos)

/-- Both divisions in `bceloss_w` have nonzero divisors. -/
def bcelossW_wellDefined (numpos numtot : ℚ) : Prop :=
  2 * (numtot - numpos) ≠ 0 ∧ 2 * numpos ≠ 0

/-- Claim C10: for class counts `numpos ≤ numtot`, the two divisions of
`bceloss_w` avoid division by zero exactly under the precondition
`0 < numpos < numtot`. -/
theorem c10_bceloss_weights (numpos numtot : ℕ) (hle : numpos ≤ numtot) :
    bcelossW_wellDefined (numpos : ℚ) (numtot : ℚ)
      ↔ 0 < numpos ∧ numpos < numtot := by
  unfold bcelossW_wellDefined
  constructor
  · rintro ⟨h0, h1⟩
    have hnp : (numpos : ℚ) ≠ 0 := by
      intro hc
      exact h1 (by rw [hc, mul_zero])
    have hne : (numtot : ℚ) - numpos ≠ 0 := by
      intro hc
      exact h0 (by rw [hc, mul_zero])
    have hp : numpos ≠ 0 := Nat.cast_ne_zero.mp hnp
    have hq : numpos ≠ numtot := by
      intro hc
      subst hc
      exact hne (sub_self _)
    omega
  · rintro ⟨h1, h2⟩
    constructor
    · apply mul_ne_zero two_ne_zero
      rw [sub_ne_zero]
      intro hc
      have : numtot = numpos := by exact_mod_cast hc
      omega
    · exact mul_ne_zero two_ne_zero (Nat.cast_ne_zero.mpr (by omega))

/-- Witness for `c10_bceloss_weights` at `numpos = 1`, `numtot = 2`. -/
theorem c10_bceloss_weights_witness :
    (1 : ℕ) ≤ 2
    ∧ (bcelossW_wellDefined ((1 : ℕ) : ℚ) ((2 : ℕ) : ℚ)
        ↔ 0 < (1 : ℕ) ∧ (1 : ℕ) < 2) :=
  ⟨by decide, c10_bceloss_weights 1 2 (by decide)⟩

/-! ## Construction-time head-count check (RTM line 97, TTM line 224)

`if self.M_size1 % self.hA != 0 or int(self.M_size1 / self.hA) == 0: print(...)`
— the condition is only printed; `__init__` continues and allocates parameters
with `Dh = M_size1 / hA` regardless. -/

def headCheckBad (Msize hA : ℕ) : Bool :=
  decide (Msize % hA ≠ 0) || decide (Msize / hA = 0)

structure AttnShapeCfg where
  Msize1 : ℕ
  tK : ℕ
  hA : ℕ
  Dh : ℕ
  warned : Bool

/-- RTM.__init__ lines 89-98: for an example input of shape `C × F × T3` the two
transposes give `inputshape = (F, T3, C)`, hence `M_size1 = T3`; the
indivisibility condition only sets the printed-warning flag and the
configuration is always produced. -/
def rtmShapeCfg (_C _F : ℕ) (T3 tK hA : ℕ) : AttnShapeCfg :=
  ⟨T3, tK, hA, T3 / hA, headCheckBad T3 hA⟩

/-- TTM.__init__ lines 209-225: for an example input of shape `d0 × d1 × d2`,
`self.input = input.transpose(0, 2)` has shape `(d2, d1, d0)`, hence
`M_size1 = d1 * d0`; the indivisibility condition again only sets the
printed-warning flag. -/
def ttmShapeCfg (d0 d1 : ℕ) (_d2 _avgf : ℕ) (tK hA : ℕ) : AttnShapeCfg :=
  ⟨d1 * d0, tK, hA, d1 * d0 / hA, headCheckBad (d1 * d0) hA⟩

/-- Claim C2, evaluated on the code: at the end-to-end shapes (`C = 19`,
`F = 120`, `T3 = 229`; TTM sees `d0 = 121`, `d1 = 20`) with 7 heads, the pairs
are invalid (`229 % 7 ≠ 0`, `2420 % 7 ≠ 0`), yet construction completes and
yields a configuration whose `warned` flag merely records the printed message
(`Dh = 32`, resp. `345`); a valid pair such as `(120, 8)` raises no warning.
The claim demands a hard construction failure here, which the code does not
produce — the spec itself records the print-and-continue behavior as a defect. -/
theorem c2_construction_behavior :
    (rtmShapeCfg 19 120 229 2 7).warned = true
    ∧ (rtmShapeCfg 19 120 229 2 7).Dh = 32
    ∧ headCheckBad 120 8 = false
    ∧ (ttmShapeCfg 121 20 229 4 2 7).warned = true
    ∧ (ttmShapeCfg 121 20 229 4 2 7).Dh = 345 := by
  decide

/-! ## ODCM executed on a concrete `[C, T]` tensor (lines 39-64)

Each of the three `nn.Conv1d` layers uses `padding='valid'`, `stride=1` and
`groups` equal to its input channel count, so every output channel is an
independent 1-D valid convolution of one input channel; PyTorch raises a shape
error when the input length is shorter than the kernel, modelled as `none`.
The third layer produces 120 filters per input channel (`ncf = 120`,
`groups = C`), which is exactly the `[C, 120, ·]` grouping the final
`torch.reshape` recovers. -/

def convValid (K : ℕ) (w : ℕ → ℚ) (b : ℚ) (xs : List ℚ) : Option (List ℚ) :=
  if xs.length < K then none
  else some ((List.range (xs.length + 1 - K)).map fun t =>
    b + ∑ k in Finset.range K, w k * xs.getD (t + k) 0)

/-- Apply `f` to the channel indices `0, …, n-1`, failing if any application
fails (the error of any per-channel convolution aborts the layer). -/
def optRange {α : Type} (f : ℕ → Option α) : ℕ → Option (List α)
  | 0 => some []
  | n + 1 => (optRange f n).bind fun ys => (f n).map fun y => ys.concat y

structure OdcmParams where
  K : ℕ
  w1 : ℕ → ℕ → ℚ
  b1 : ℕ → ℚ
  w2 : ℕ → ℕ → ℚ
  b2 : ℕ → ℚ
  w3 : ℕ → ℕ → ℕ → ℚ
  b3 : ℕ → ℕ → ℚ

/-- Depthwise layer (`cvf1`, `cvf2`): channel `ch` is convolved with its own
kernel `w ch`. -/
def dwLayer (K : ℕ) (w : ℕ → ℕ → ℚ) (b : ℕ → ℚ) (xss : List (List ℚ)) :
    Option (List (List ℚ)) :=
  optRange (fun ch => convValid K (w ch) (b ch) (xss.getD ch [])) xss.length

/-- Third layer (`cvf3`) with the reshape of lines 62: input channel `ch`
yields the 120 filter rows `w ch 0, …, w ch 119`. -/
def dwLayer3 (K : ℕ) (w : ℕ → ℕ → ℕ → ℚ) (b : ℕ → ℕ → ℚ) (xss : List (List ℚ)) :
    Option (List (List (List ℚ))) :=
  optRange (fun ch =>
    optRange (fun f => convValid K (w ch f) (b ch f) (xss.getD ch [])) 120)
    xss.length

def odcmRun (p : OdcmParams) (xss : List (List ℚ)) :
    Option (List (List (List ℚ))) :=
  (dwLayer p.K p.w1 p.b1 xss).bind fun y1 =>
  (dwLayer p.K p.w2 p.b2 y1).bind fun y2 =>
  dwLayer3 p.K p.w3 p.b3 y2

lemma optRange_shape {α : Type} (P : α → Prop) (f : ℕ → Option α) :
    ∀ n, (∀ i, i < n → ∃ y, f i = some y ∧ P y) →
      ∃ out, optRange f n = some out ∧ out.length = n ∧ ∀ y ∈ out, P y := by
  intro n
  induction n with
  | zero =>
    intro _
    exact ⟨[], rfl, rfl, by intro y hy; exact absurd hy (List.not_mem_nil y)⟩
  | succ n ih =>
    intro h
    rcases ih (fun i hi => h i (by omega)) with ⟨out, ho, hlen, hmem⟩
    rcases h n (by omega) with ⟨y, hy, hPy⟩
    refine ⟨out.concat y, ?_, ?_, ?_⟩
    · simp [optRange, ho, hy]
    · simp [List.length_concat, hlen]
    · intro z hz
      rw [List.concat_eq_append] at hz
      rcases List.mem_append.mp hz with hz | hz
      · exact hmem z hz
      · rw [List.mem_singleton.mp hz]
        exact hPy

lemma optRange_none {α : Type} (f : ℕ → Option α) :
    ∀ n i, i < n → f i = none → optRange f n = none := by
  intro n
  induction n with
  | zero =>
    intro i hi
    exact absurd hi (by omega)
  | succ n ih =>
    intro i hi hf
    by_cases hin : i < n
    · have hn := ih i hin hf
      simp [optRange, hn]
    · have hieq : i = n := by omega
      subst hieq
      cases hor : optRange f i with
      | none => simp [optRange, hor]
      | some ys => simp [optRange, hor, hf]

lemma convValid_some (K : ℕ) (w : ℕ → ℚ) (b : ℚ) (xs : List ℚ)
    (h : K ≤ xs.length) :
    ∃ ys, convValid K w b xs = some ys ∧ ys.length = xs.length + 1 - K := by
  refine ⟨(List.range (xs.length + 1 - K)).map fun t =>
    b + ∑ k in Finset.range K, w k * xs.getD (t + k) 0, ?_, ?_⟩
  · unfold convValid
    rw [if_neg (by omega)]
  · simp

lemma convValid_none (K : ℕ) (w : ℕ → ℚ) (b : ℚ) (xs : List ℚ)
    (h : xs.length < K) :
    convValid K w b xs = none := by
  unfold convValid
  rw [if_pos h]

lemma getD_mem_of_lt {α : Type} (l : List α) (d : α) (i : ℕ) (hi : i < l.length) :
    l.getD i d ∈ l := by
  rw [List.getD_eq_get l d hi]
  exact List.get_mem l i hi

lemma dwLayer_some (K : ℕ) (w : ℕ → ℕ → ℚ) (b : ℕ → ℚ) (xss : List (List ℚ))
    (T : ℕ) (hT : ∀ xs ∈ xss, xs.length = T) (hKT : K ≤ T) :
    ∃ yss, dwLayer K w b xss = some yss ∧ yss.length = xss.length
      ∧ ∀ ys ∈ yss, ys.length = T + 1 - K := by
  unfold dwLayer
  refine optRange_shape (fun ys : List ℚ => ys.length = T + 1 - K) _ _ ?_
  intro i hi
  have hlen : (xss.getD i []).length = T := hT _ (getD_mem_of_lt xss [] i hi)
  rcases convValid_some K (w i) (b i) (xss.getD i []) (by omega) with ⟨ys, h1, h2⟩
  refine ⟨ys, h1, ?_⟩
  show ys.length = T + 1 - K
  rw [h2, hlen]

lemma dwLayer_none (K : ℕ) (w : ℕ → ℕ → ℚ) (b : ℕ → ℚ) (xss : List (List ℚ))
    (T : ℕ) (hT : ∀ xs ∈ xss, xs.length = T) (h0 : 0 < xss.length)
    (hKT : T < K) :
    dwLayer K w b xss = none := by
  unfold dwLayer
  apply optRange_none _ _ 0 h0
  apply convValid_none
  rw [hT _ (getD_mem_of_lt xss [] 0 h0)]
  exact hKT

lemma dwLayer3_some (K : ℕ) (w : ℕ → ℕ → ℕ → ℚ) (b : ℕ → ℕ → ℚ)
    (xss : List (List ℚ)) (T : ℕ)
    (hT : ∀ xs ∈ xss, xs.length = T) (hKT : K ≤ T) :
    ∃ out, dwLayer3 K w b xss = some out ∧ out.length = xss.length
      ∧ ∀ fs ∈ out, fs.length = 120 ∧ ∀ zs ∈ fs, zs.length = T + 1 - K := by
  unfold dwLayer3
  refine optRange_shape
    (fun fs : List (List ℚ) => fs.length = 120 ∧ ∀ zs ∈ fs, zs.length = T + 1 - K)
    _ _ ?_
  intro i hi
  have hlen : (xss.getD i []).length = T := hT _ (getD_mem_of_lt xss [] i hi)
  rcases optRange_shape (fun zs : List ℚ => zs.length = T + 1 - K)
      (fun f => convValid K (w i f) (b i f) (xss.getD i [])) 120
      (fun f _ => by
        rcases convValid_some K (w i f) (b i f) (xss.getD i []) (by omega)
          with ⟨zs, h1, h2⟩
        refine ⟨zs, h1, ?_⟩
        show zs.length = T + 1 - K
        rw [h2, hlen])
    with ⟨fs, h1, h2, h3⟩
  exact ⟨fs, h1, h2, h3⟩

lemma dwLayer3_none (K : ℕ) (w : ℕ → ℕ → ℕ → ℚ) (b : ℕ → ℕ → ℚ)
    (xss : List (List ℚ)) (T : ℕ)
    (hT : ∀ xs ∈ xss, xs.length = T) (h0 : 0 < xss.length) (hKT : T < K) :
    dwLayer3 K w b xss = none := by
  unfold dwLayer3
  apply optRange_none _ _ 0 h0
  apply optRange_none _ _ 0 (by omega)
  apply convValid_none
  rw [hT _ (getD_mem_of_lt xss [] 0 h0)]
  exact hKT

/-- Claim C3: for a `[C, T]` input (nonempty channel set, kernel size `K ≥ 1`
as `nn.Conv1d` requires), the ODCM forward pass returns a `[C, 120, T-3(K-1)]`
tensor when `T > 3(K-1)` and fails with a shape error (`none`) when
`T ≤ 3(K-1)`. -/
theorem c3_odcm_shape (p : OdcmParams) (xss : List (List ℚ)) (C T : ℕ)
    (hK : 1 ≤ p.K) (hC : xss.length = C) (hC0 : 0 < C)
    (hT : ∀ xs ∈ xss, xs.length = T) :
    (3 * (p.K - 1) < T →
      ∃ out, odcmRun p xss = some out ∧ out.length = C
        ∧ ∀ fs ∈ out, fs.length = 120 ∧ ∀ zs ∈ fs, zs.length = T - 3 * (p.K - 1))
    ∧ (T ≤ 3 * (p.K - 1) → odcmRun p xss = none) := by
  constructor
  · intro hTK
    have hK1 : p.K ≤ T := by omega
    rcases dwLayer_some p.K p.w1 p.b1 xss T hT hK1 with ⟨y1, h1, h1len, h1in⟩
    have hK2 : p.K ≤ T + 1 - p.K := by omega
    rcases dwLayer_some p.K p.w2 p.b2 y1 (T + 1 - p.K) h1in hK2
      with ⟨y2, h2, h2len, h2in⟩
    have hK3 : p.K ≤ T + 1 - p.K + 1 - p.K := by omega
    rcases dwLayer3_some p.K p.w3 p.b3 y2 (T + 1 - p.K + 1 - p.K) h2in hK3
      with ⟨out, h3, h3len, h3in⟩
    refine ⟨out, ?_, ?_, ?_⟩
    · simp [odcmRun, h1, h2, h3]
    · rw [h3len, h2len, h1len, hC]
    · intro fs hfs
      rcases h3in fs hfs with ⟨hfl, hzs⟩
      refine ⟨hfl, ?_⟩
      intro zs hz
      rw [hzs zs hz]
      omega
  · intro hTK
    by_cases hA : T < p.K
    · have h1 := dwLayer_none p.K p.w1 p.b1 xss T hT (by omega) hA
      simp [odcmRun, h1]
    · push_neg at hA
      rcases dwLayer_some p.K p.w1 p.b1 xss T hT hA with ⟨y1, h1, h1len, h1in⟩
      by_cases hB : T + 1 - p.K < p.K
      · have h2 := dwLayer_none p.K p.w2 p.b2 y1 (T + 1 - p.K) h1in
          (by rw [h1len, hC]; exact hC0) hB
        simp [odcmRun, h1, h2]
      · push_neg at hB
        rcases dwLayer_some p.K p.w2 p.b2 y1 (T + 1 - p.K) h1in hB
          with ⟨y2, h2, h2len, h2in⟩
        have hCc : T + 1 - p.K + 1 - p.K < p.K := by omega
        have h3 := dwLayer3_none p.K p.w3 p.b3 y2 (T + 1 - p.K + 1 - p.K) h2in
          (by rw [h2len, h1len, hC]; exact hC0) hCc
        simp [odcmRun, h1, h2, h3]

/-- Zero-weight ODCM parameters with kernel size 1, for concrete instantiation. -/
def odcmP0 : OdcmParams :=
  ⟨1, fun _ _ => 0, fun _ => 0, fun _ _ => 0, fun _ => 0,
    fun _ _ _ => 0, fun _ _ => 0⟩

/-- Witness for `c3_odcm_shape` at the one-channel, one-sample input `[[0]]`. -/
theorem c3_odcm_shape_witness :
    (1 ≤ odcmP0.K ∧ ([[(0 : ℚ)]] : List (List ℚ)).length = 1 ∧ 0 < 1
      ∧ ∀ xs ∈ ([[(0 : ℚ)]] : List (List ℚ)), xs.length = 1)
    ∧ ((3 * (odcmP0.K - 1) < 1 →
        ∃ out, odcmRun odcmP0 [[(0 : ℚ)]] = some out ∧ out.length = 1
          ∧ ∀ fs ∈ out, fs.length = 120
            ∧ ∀ zs ∈ fs, zs.length = 1 - 3 * (odcmP0.K - 1))
      ∧ (1 ≤ 3 * (odcmP0.K - 1) → odcmRun odcmP0 [[(0 : ℚ)]] = none)) :=
  ⟨⟨by decide, by decide, by decide, by simp⟩,
    c3_odcm_shape odcmP0 [[0]] 1 1 (by decide) (by decide) (by decide) (by simp)⟩

/-! ## Layer normalization, linear layer, dropout, MLP (lines 67-83, 108-111)

`lnormF` is `nn.LayerNorm(D)` over the feature axis (biased variance,
`eps = 1e-5`, elementwise affine); `sqF` stands for the float square root.
`dropoutF` is training-mode `nn.Dropout(p)`: kept entries are scaled by
`1/(1-p)`, dropped entries become 0; the Bernoulli keep-draws are the external
`mask`, and for `p = 0` every draw keeps.  `mlpF` is `Mlp.forward`
(fc1 → GELU → dropout → fc2 → dropout); all three attention modules construct
`Mlp` with the default `drop = 0`. -/

def lnormF (sqF : ℚ → ℚ) (D : ℕ) (gw gb : ℕ → ℚ) (x : ℕ → ℚ) : ℕ → ℚ :=
  let mu := (∑ t in Finset.range D, x t) / (D : ℚ)
  let varx := (∑ t in Finset.range D, (x t - mu) ^ 2) / (D : ℚ)
  fun m => (x m - mu) / sqF (varx + 1 / 100000) * gw m + gb m

def linearF (Din : ℕ) (W : ℕ → ℕ → ℚ) (b : ℕ → ℚ) (x : ℕ → ℚ) : ℕ → ℚ :=
  fun o => b o + ∑ m in Finset.range Din, W o m * x m

def dropoutF (p : ℚ) (mask : ℕ → Bool) (x : ℕ → ℚ) : ℕ → ℚ :=
  fun i => if mask i then x i / (1 - p) else 0

structure MlpParams where
  inF : ℕ
  hidden : ℕ
  W1 : ℕ → ℕ → ℚ
  b1 : ℕ → ℚ
  W2 : ℕ → ℕ → ℚ
  b2 : ℕ → ℚ
  drop : ℚ

def mlpF (gelu : ℚ → ℚ) (p : MlpParams) (m1 m2 : ℕ → Bool) (x : ℕ → ℚ) : ℕ → ℚ :=
  dropoutF p.drop m2
    (linearF p.hidden p.W2 p.b2
      (dropoutF p.drop m1 (fun i => gelu (linearF p.inF p.W1 p.b1 x i))))

/-! ## RTM / STM parameters and forward pass (lines 86-205)

The two classes allocate identical parameter sets and run identical block
loops, differing only in how the initial `savespace` is formed from the input,
so one parameter structure and block embedding serves both.  `seqN` is the
pre-aggregate-token sequence extent (`inputshape[0]` for RTM — the 120 filter
tokens — and `x.shape[0]` for STM); `D = M_size1`.  `self.lnorm`, `self.lnormz`
and `self.mlp` are allocated once per module (lines 108-111), not per block;
`Wqkv` and `Wo` carry a leading block index (lines 106-107). -/

structure AttnParams where
  seqN : ℕ
  D : ℕ
  tK : ℕ
  hA : ℕ
  Dh : ℕ
  sq : ℚ
  weight : ℕ → ℕ → ℚ
  bias : ℕ → ℕ → ℕ → ℚ
  cls : ℕ → ℕ → ℚ
  Wqkv : ℕ → ℕ → ℕ → ℕ → ℕ → ℚ
  Wo : ℕ → ℕ → ℕ → ℚ
  lnW : ℕ → ℚ
  lnB : ℕ → ℚ
  lnzW : ℕ → ℚ
  lnzB : ℕ → ℚ
  mlp : MlpParams

/-- Query/key/value projection weight the block loop reads at block `a`
(`self.Wqkv[a]`, line 127). -/
def attnBlockWqkv (p : AttnParams) (a : ℕ) : ℕ → ℕ → ℕ → ℕ → ℚ := p.Wqkv a

/-- Output projection weight the block loop reads at block `a`
(`self.Wo[a]`, line 140). -/
def attnBlockWo (p : AttnParams) (a : ℕ) : ℕ → ℕ → ℚ := p.Wo a

/-- Pre-attention LayerNorm parameters (weight, bias) used at block `a`:
line 127 reads `self.lnorm`, which carries no block index. -/
def attnBlockLn (p : AttnParams) (_a : ℕ) : (ℕ → ℚ) × (ℕ → ℚ) := (p.lnW, p.lnB)

/-- Pre-MLP LayerNorm parameters used at block `a`: line 143 reads
`self.lnormz`, which carries no block index. -/
def attnBlockLnz (p : AttnParams) (_a : ℕ) : (ℕ → ℚ) × (ℕ → ℚ) := (p.lnzW, p.lnzB)

/-- MLP parameters used at block `a`: line 143 reads `self.mlp`, which carries
no block index. -/
def attnBlockMlp (p : AttnParams) (_a : ℕ) : MlpParams := p.mlp

/-- `z'` of line 140: heads of the accumulated intermediate vectors are merged
back to `D` columns (`reshape`, row-major `m = h * Dh + d`), projected by
`Wo[a]` and added as a residual to the block input `z`. -/
def attnZ1 (sqF : ℚ → ℚ) (p : AttnParams) (a : ℕ) (z : ℕ → ℕ → ℕ → ℚ) :
    ℕ → ℕ → ℕ → ℚ :=
  fun i j n =>
    (∑ m in Finset.range p.D,
        attnBlockWo p a n m *
          imvAccT p.seqN
            (imvT p.D p.Dh p.sq (attnBlockWqkv p a)
              (fun i2 j2 => lnormF sqF p.D (attnBlockLn p a).1 (attnBlockLn p a).2 (z i2 j2)))
            i j (m / p.Dh) (m % p.Dh))
      + z i j n

/-- One block of the loop (lines 126-143): `z' = Wo[a] · accum(imv) + z`, then
`new z = mlp(lnormz(z')) + z'`. -/
def attnBlock (gelu sqF : ℚ → ℚ) (p : AttnParams) (mk : ℕ → ℕ → ℕ → ℕ → Bool)
    (a : ℕ) (z : ℕ → ℕ → ℕ → ℚ) : ℕ → ℕ → ℕ → ℚ :=
  fun i j n =>
    mlpF gelu (attnBlockMlp p a) (mk 0 i j) (mk 1 i j)
      (lnormF sqF p.D (attnBlockLnz p a).1 (attnBlockLnz p a).2 (attnZ1 sqF p a z i j)) n
    + attnZ1 sqF p a z i j n

/-- State of `savespace` after the first `n` blocks. -/
def attnBlocks (gelu sqF : ℚ → ℚ) (p : AttnParams)
    (mks : ℕ → ℕ → ℕ → ℕ → ℕ → Bool) (z0 : ℕ → ℕ → ℕ → ℚ) :
    ℕ → (ℕ → ℕ → ℕ → ℚ)
  | 0 => z0
  | n + 1 => attnBlock gelu sqF p (mks n) n (attnBlocks gelu sqF p mks z0 n)

/-- Initial `savespace` of RTM (lines 114-119): project with `self.weight`,
prepend `cls` along the sequence axis, add `bias`. -/
def rtmZ0 (p : AttnParams) (x : ℕ → ℕ → ℕ → ℚ) : ℕ → ℕ → ℕ → ℚ :=
  fun i j m =>
    (if j = 0 then p.cls i m
      else ∑ t in Finset.range p.D, p.weight m t * x i (j - 1) t) + p.bias i j m

def rtmForward (gelu sqF : ℚ → ℚ) (p : AttnParams)
    (mks : ℕ → ℕ → ℕ → ℕ → ℕ → Bool) (x : ℕ → ℕ → ℕ → ℚ) : ℕ → ℕ → ℕ → ℚ :=
  attnBlocks gelu sqF p mks (rtmZ0 p x) p.tK

/-- Initial `savespace` of STM (lines 176-181): same assembly after the
`transpose(1, 2)` of the input. -/
def stmZ0 (p : AttnParams) (x : ℕ → ℕ → ℕ → ℚ) : ℕ → ℕ → ℕ → ℚ :=
  fun i j m =>
    (if j = 0 then p.cls i m
      else ∑ t in Finset.range p.D, p.weight m t * x (j - 1) i t) + p.bias i j m

def stmForward (gelu sqF : ℚ → ℚ) (p : AttnParams)
    (mks : ℕ → ℕ → ℕ → ℕ → ℕ → Bool) (x : ℕ → ℕ → ℕ → ℚ) : ℕ → ℕ → ℕ → ℚ :=
  attnBlocks gelu sqF p mks (stmZ0 p x) p.tK

/-! ## TTM parameters and forward pass (lines 208-280)

The token axis is one-dimensional (`avgf + 1` tokens).  `dim1`, `dim2` are
`input.shape[1]`, `input.shape[2]` after `transpose(0, 2)`; `D = dim1 * dim2`;
`seg = int(input.shape[0] / avgf)`.  `lnxW/lnxB` are the extra
`self.lnorm_extra` applied after the final block (line 279). -/

structure TTMParams where
  avgf : ℕ
  dim1 : ℕ
  dim2 : ℕ
  seg : ℕ
  D : ℕ
  tK : ℕ
  hA : ℕ
  Dh : ℕ
  sq : ℚ
  weight : ℕ → ℕ → ℚ
  bias : ℕ → ℕ → ℚ
  cls : ℕ → ℚ
  Wqkv : ℕ → ℕ → ℕ → ℕ → ℕ → ℚ
  Wo : ℕ → ℕ → ℕ → ℚ
  lnW : ℕ → ℚ
  lnB : ℕ → ℚ
  lnzW : ℕ → ℚ
  lnzB : ℕ → ℚ
  lnxW : ℕ → ℚ
  lnxB : ℕ → ℚ
  mlp : MlpParams

/-- `altx` (lines 243-250): transpose the input to `(T, S, C)` order, average
each of the `avgf` contiguous segments of `seg` rows, and flatten `(S, C)`
row-major into one feature axis of width `dim1 * dim2`. -/
def ttmAltx (p : TTMParams) (x : ℕ → ℕ → ℕ → ℚ) : ℕ → ℕ → ℚ :=
  fun i m => ttmSegAvg p.seg (fun j s c => x c s j) i (m / p.dim2) (m % p.dim2)

/-- Initial `savespace` of TTM (lines 252-255). -/
def ttmZ0 (p : TTMParams) (x : ℕ → ℕ → ℕ → ℚ) : ℕ → ℕ → ℚ :=
  fun i m =>
    (if i = 0 then p.cls m
      else ∑ t in Finset.range p.D, p.weight m t * ttmAltx p x (i - 1) t) + p.bias i m

/-- `z'` of line 274. -/
def ttmZ1 (sqF : ℚ → ℚ) (p : TTMParams) (a : ℕ) (z : ℕ → ℕ → ℚ) : ℕ → ℕ → ℚ :=
  fun i n =>
    (∑ m in Finset.range p.D,
        p.Wo a n m *
          imvAccT1 p.avgf
            (imvT1 p.D p.Dh p.sq (p.Wqkv a)
              (fun i2 => lnormF sqF p.D p.lnW p.lnB (z i2)))
            i (m / p.Dh) (m % p.Dh))
      + z i n

/-- One TTM block (lines 261-277). -/
def ttmBlock (gelu sqF : ℚ → ℚ) (p : TTMParams) (mk : ℕ → ℕ → ℕ → Bool)
    (a : ℕ) (z : ℕ → ℕ → ℚ) : ℕ → ℕ → ℚ :=
  fun i n =>
    mlpF gelu p.mlp (mk 0 i) (mk 1 i)
      (lnormF sqF p.D p.lnzW p.lnzB (ttmZ1 sqF p a z i)) n
    + ttmZ1 sqF p a z i n

def ttmBlocks (gelu sqF : ℚ → ℚ) (p : TTMParams)
    (mks : ℕ → ℕ → ℕ → ℕ → Bool) (z0 : ℕ → ℕ → ℚ) : ℕ → (ℕ → ℕ → ℚ)
  | 0 => z0
  | n + 1 => ttmBlock gelu sqF p (mks n) n (ttmBlocks gelu sqF p mks z0 n)

/-- TTM forward (lines 242-280): block loop, `lnorm_extra`, and the final
reshape of the `(avgf+1, D)` state back to `(avgf+1, dim1, dim2)`. -/
def ttmForward (gelu sqF : ℚ → ℚ) (p : TTMParams)
    (mks : ℕ → ℕ → ℕ → ℕ → Bool) (x : ℕ → ℕ → ℕ → ℚ) : ℕ → ℕ → ℕ → ℚ :=
  fun i s c =>
    lnormF sqF p.D p.lnxW p.lnxB (ttmBlocks gelu sqF p mks (ttmZ0 p x) p.tK i)
      (s * p.dim2 + c)

/-! ## CNN decoder (lines 283-305)

Three 1×1 convolutions (`cvd1` collapses the channel axis, `cvd2` maps the
sequence axis to `n = CF_second` rows, `cvd3` halves the `m = avgf+1` axis)
followed by a flatten and the final linear layer; the result is the single
logits row of the `(1, num_cls)` output. -/

structure DecParams where
  sN : ℕ
  cN : ℕ
  mN : ℕ
  nN : ℕ
  w1 : ℕ → ℚ
  b1 : ℚ
  w2 : ℕ → ℕ → ℚ
  b2 : ℕ → ℚ
  w3 : ℕ → ℕ → ℚ
  b3 : ℕ → ℚ
  Wfc : ℕ → ℕ → ℚ
  bfc : ℕ → ℚ

def decForward (p : DecParams) (y : ℕ → ℕ → ℕ → ℚ) : ℕ → ℚ :=
  let u := fun bq t => p.b1 + ∑ ch in Finset.range p.cN, p.w1 ch * y t bq ch
  let v := fun o t => p.b2 o + ∑ q in Finset.range p.sN, p.w2 o q * u q t
  let w3o := fun o t => p.b3 o + ∑ q in Finset.range p.mN, p.w3 o q * v t q
  fun q => p.bfc q
    + ∑ k in Finset.range (p.mN / 2 * p.nN), p.Wfc q k * w3o (k / p.nN) (k % p.nN)

/-- Value-level ODCM (lines 54-64) on a well-shaped `[C, T]` input: the same
per-entry convolution values as `odcmRun` computes, as a total index function
for composition inside the end-to-end forward pass. -/
def odcmF (p : OdcmParams) (x : ℕ → ℕ → ℚ) : ℕ → ℕ → ℕ → ℚ :=
  let c1 := fun ch t => p.b1 ch + ∑ k in Finset.range p.K, p.w1 ch k * x ch (t + k)
  let c2 := fun ch t => p.b2 ch + ∑ k in Finset.range p.K, p.w2 ch k * c1 ch (t + k)
  fun ch f t => p.b3 ch f + ∑ k in Finset.range p.K, p.w3 ch f k * c2 ch (t + k)

/-- `torch.softmax(x, dim=1)` on the logits row; `expF` stands for the float
exponential. -/
def softmaxF (expF : ℚ → ℚ) (n : ℕ) (x : ℕ → ℚ) : ℕ → ℚ :=
  fun q => expF (x q) / ∑ t in Finset.range n, expF (x t)

structure EEGParams where
  odcm : OdcmParams
  rtm : AttnParams
  stm : AttnParams
  ttm : TTMParams
  dec : DecParams
  ncls : ℕ

/-- `EEGformer.forward` (lines 334-341): transpose the `[T, C]` input, then
ODCM → RTM → STM → TTM → decoder → softmax.  The dropout keep-masks of the
three modules' MLPs are the only stochastic inputs of a forward pass. -/
def eegForward (gelu sqF expF : ℚ → ℚ) (P : EEGParams)
    (mR mS : ℕ → ℕ → ℕ → ℕ → ℕ → Bool) (mT : ℕ → ℕ → ℕ → ℕ → Bool)
    (x : ℕ → ℕ → ℚ) : ℕ → ℚ :=
  softmaxF expF P.ncls (decForward P.dec
    (ttmForward gelu sqF P.ttm mT
      (stmForward gelu sqF P.stm mS
        (rtmForward gelu sqF P.rtm mR
          (odcmF P.odcm (fun ch t => x t ch))))))

/-- Zero-weight MLP parameters with `drop = 0` (the default every module uses). -/
def mlpP0 : MlpParams :=
  ⟨1, 4, fun _ _ => 0, fun _ => 0, fun _ _ => 0, fun _ => 0, 0⟩

/-- A concrete two-block RTM/STM parameter set. -/
def attnP2 : AttnParams :=
  ⟨1, 1, 2, 1, 1, 1, fun _ _ => 0, fun _ _ _ => 0, fun _ _ => 0,
    fun _ _ _ _ _ => 0, fun _ _ _ => 0, fun _ => 1, fun _ => 0, fun _ => 1,
    fun _ => 0, mlpP0⟩

/-- A concrete two-block parameter set whose per-block q/k/v weights differ
between blocks 0 and 1. -/
def attnP2q : AttnParams :=
  ⟨1, 1, 2, 1, 1, 1, fun _ _ => 0, fun _ _ _ => 0, fun _ _ => 0,
    fun a _ _ _ _ => (a : ℚ), fun _ _ _ => 0, fun _ => 1, fun _ => 0, fun _ => 1,
    fun _ => 0, mlpP0⟩

/-- Counterexample to claim C8 as stated: in a module with `K = 2` blocks, the
layer-normalization parameter sets used by block 0 and by block 1 are one and
the same set (`self.lnorm` / `self.lnormz` carry no block index), not distinct
per block; likewise the MLP. -/
theorem c8_params_cex :
    (0 : ℕ) ≠ 1
    ∧ attnBlockLn attnP2 0 = attnBlockLn attnP2 1
    ∧ attnBlockLnz attnP2 0 = attnBlockLnz attnP2 1
    ∧ attnBlockMlp attnP2 0 = attnBlockMlp attnP2 1 :=
  ⟨by decide, rfl, rfl, rfl⟩

/-- Claim C8 (amended): each attention component allocates per-block
query/key/value projection weights (`Wqkv[a]`, indexed `3 × heads × Dh × D`)
and a per-block output projection weight (`Wo[a]`, `D × D`) — genuinely
distinct per block, as an allocation with different values per block shows —
but only a single pre-attention LayerNorm parameter set, a single pre-MLP
LayerNorm parameter set and a single MLP (hidden size 4×D), each shared by all
K blocks. -/
theorem c8_params_amended :
    (∀ (p : AttnParams) (a b : ℕ),
      attnBlockLn p a = attnBlockLn p b
      ∧ attnBlockLnz p a = attnBlockLnz p b
      ∧ attnBlockMlp p a = attnBlockMlp p b)
    ∧ (∀ (p : AttnParams) (a : ℕ),
      attnBlockWqkv p a = p.Wqkv a ∧ attnBlockWo p a = p.Wo a)
    ∧ (∃ (p : AttnParams) (a b : ℕ),
      a ≠ b ∧ attnBlockWqkv p a ≠ attnBlockWqkv p b) := by
  refine ⟨fun p a b => ⟨rfl, rfl, rfl⟩, fun p a => ⟨rfl, rfl⟩, ?_⟩
  refine ⟨attnP2q, 0, 1, by decide, ?_⟩
  intro hcontra
  have h := congrFun (congrFun (congrFun (congrFun hcontra 0) 0) 0) 0
  have h0 : attnBlockWqkv attnP2q 0 0 0 0 0 = 0 := rfl
  have h1 : attnBlockWqkv attnP2q 1 0 0 0 0 = 1 := rfl
  rw [h0, h1] at h
  exact absurd h (by norm_num)

/-! ## Determinism of the forward pass over the dropout draws (claim C9) -/

/-- A family of dropout keep-draws that keeps everything — with `p = 0` the
Bernoulli keep-probability is 1, so these are the only possible draws. -/
def maskAll5 (m : ℕ → ℕ → ℕ → ℕ → ℕ → Bool) : Prop :=
  ∀ a w i j f, m a w i j f = true

def maskAll4 (m : ℕ → ℕ → ℕ → ℕ → Bool) : Prop :=
  ∀ a w i f, m a w i f = true

lemma dropoutF_zero (m : ℕ → Bool) (hm : ∀ i, m i = true) (x : ℕ → ℚ) :
    dropoutF 0 m x = x := by
  funext i
  simp [dropoutF, hm i]

lemma mlpF_mask_eq (gelu : ℚ → ℚ) (p : MlpParams) (hdrop : p.drop = 0)
    (m1 m2 m1b m2b : ℕ → Bool)
    (h1 : ∀ i, m1 i = true) (h2 : ∀ i, m2 i = true)
    (h1b : ∀ i, m1b i = true) (h2b : ∀ i, m2b i = true) (x : ℕ → ℚ) :
    mlpF gelu p m1 m2 x = mlpF gelu p m1b m2b x := by
  unfold mlpF
  rw [hdrop, dropoutF_zero m1 h1, dropoutF_zero m1b h1b,
    dropoutF_zero m2 h2, dropoutF_zero m2b h2b]

lemma attnBlock_mask_eq (gelu sqF : ℚ → ℚ) (p : AttnParams)
    (hdrop : p.mlp.drop = 0) (mk mkb : ℕ → ℕ → ℕ → ℕ → Bool)
    (hmk : ∀ w i j f, mk w i j f = true) (hmkb : ∀ w i j f, mkb w i j f = true)
    (a : ℕ) (z : ℕ → ℕ → ℕ → ℚ) :
    attnBlock gelu sqF p mk a z = attnBlock gelu sqF p mkb a z := by
  funext i j n
  unfold attnBlock
  rw [mlpF_mask_eq gelu (attnBlockMlp p a) hdrop (mk 0 i j) (mk 1 i j)
    (mkb 0 i j) (mkb 1 i j) (fun f => hmk 0 i j f) (fun f => hmk 1 i j f)
    (fun f => hmkb 0 i j f) (fun f => hmkb 1 i j f)]

lemma attnBlocks_mask_eq (gelu sqF : ℚ → ℚ) (p : AttnParams)
    (hdrop : p.mlp.drop = 0) (mks mksb : ℕ → ℕ → ℕ → ℕ → ℕ → Bool)
    (hmks : maskAll5 mks) (hmksb : maskAll5 mksb) (z0 : ℕ → ℕ → ℕ → ℚ) :
    ∀ n, attnBlocks gelu sqF p mks z0 n = attnBlocks gelu sqF p mksb z0 n := by
  intro n
  induction n with
  | zero => rfl
  | succ n ih =>
    show attnBlock gelu sqF p (mks n) n (attnBlocks gelu sqF p mks z0 n)
      = attnBlock gelu sqF p (mksb n) n (attnBlocks gelu sqF p mksb z0 n)
    rw [ih]
    exact attnBlock_mask_eq gelu sqF p hdrop (mks n) (mksb n)
      (fun w i j f => hmks n w i j f) (fun w i j f => hmksb n w i j f) n _

lemma rtmForward_mask_eq (gelu sqF : ℚ → ℚ) (p : AttnParams)
    (hdrop : p.mlp.drop = 0) (mks mksb : ℕ → ℕ → ℕ → ℕ → ℕ → Bool)
    (hmks : maskAll5 mks) (hmksb : maskAll5 mksb) (x : ℕ → ℕ → ℕ → ℚ) :
    rtmForward gelu sqF p mks x = rtmForward gelu sqF p mksb x :=
  attnBlocks_mask_eq gelu sqF p hdrop mks mksb hmks hmksb (rtmZ0 p x) p.tK

lemma stmForward_mask_eq (gelu sqF : ℚ → ℚ) (p : AttnParams)
    (hdrop : p.mlp.drop = 0) (mks mksb : ℕ → ℕ → ℕ → ℕ → ℕ → Bool)
    (hmks : maskAll5 mks) (hmksb : maskAll5 mksb) (x : ℕ → ℕ → ℕ → ℚ) :
    stmForward gelu sqF p mks x = stmForward gelu sqF p mksb x :=
  attnBlocks_mask_eq gelu sqF p hdrop mks mksb hmks hmksb (stmZ0 p x) p.tK

lemma ttmBlock_mask_eq (gelu sqF : ℚ → ℚ) (p : TTMParams)
    (hdrop : p.mlp.drop = 0) (mk mkb : ℕ → ℕ → ℕ → Bool)
    (hmk : ∀ w i f, mk w i f = true) (hmkb : ∀ w i f, mkb w i f = true)
    (a : ℕ) (z : ℕ → ℕ → ℚ) :
    ttmBlock gelu sqF p mk a z = ttmBlock gelu sqF p mkb a z := by
  funext i n
  unfold ttmBlock
  rw [mlpF_mask_eq gelu p.mlp hdrop (mk 0 i) (mk 1 i) (mkb 0 i) (mkb 1 i)
    (fun f => hmk 0 i f) (fun f => hmk 1 i f)
    (fun f => hmkb 0 i f) (fun f => hmkb 1 i f)]

lemma ttmBlocks_mask_eq (gelu sqF : ℚ → ℚ) (p : TTMParams)
    (hdrop : p.mlp.drop = 0) (mks mksb : ℕ → ℕ → ℕ → ℕ → Bool)
    (hmks : maskAll4 mks) (hmksb : maskAll4 mksb) (z0 : ℕ → ℕ → ℚ) :
    ∀ n, ttmBlocks gelu sqF p mks z0 n = ttmBlocks gelu sqF p mksb z0 n := by
  intro n
  induction n with
  | zero => rfl
  | succ n ih =>
    show ttmBlock gelu sqF p (mks n) n (ttmBlocks gelu sqF p mks z0 n)
      = ttmBlock gelu sqF p (mksb n) n (ttmBlocks gelu sqF p mksb z0 n)
    rw [ih]
    exact ttmBlock_mask_eq gelu sqF p hdrop (mks n) (mksb n)
      (fun w i f => hmks n w i f) (fun w i f => hmksb n w i f) n _

lemma ttmForward_mask_eq (gelu sqF : ℚ → ℚ) (p : TTMParams)
    (hdrop : p.mlp.drop = 0) (mks mksb : ℕ → ℕ → ℕ → ℕ → Bool)
    (hmks : maskAll4 mks) (hmksb : maskAll4 mksb) (x : ℕ → ℕ → ℕ → ℚ) :
    ttmForward gelu sqF p mks x = ttmForward gelu sqF p mksb x := by
  unfold ttmForward
  rw [ttmBlocks_mask_eq gelu sqF p hdrop mks mksb hmks hmksb (ttmZ0 p x) p.tK]

/-- Claim C9: the end-to-end forward pass is a deterministic function of the
input tensor and the parameter values.  The only stochastic inputs of a
forward pass are the dropout keep-draws of the three modules' MLPs; every
module constructs its `Mlp` with the default rate 0, under which the only
possible draw keeps every entry, and any two runs (any two valid draw
families) produce equal outputs.  All buffers (`savespace`, `qkvspace`, …) are
allocated afresh per call, which the embedding reflects by computing the
output purely from `(parameters, input)`. -/
theorem c9_forward_deterministic (gelu sqF expF : ℚ → ℚ) (P : EEGParams)
    (mR mRb mS mSb : ℕ → ℕ → ℕ → ℕ → ℕ → Bool) (mT mTb : ℕ → ℕ → ℕ → ℕ → Bool)
    (hR : maskAll5 mR) (hRb : maskAll5 mRb) (hS : maskAll5 mS)
    (hSb : maskAll5 mSb) (hT : maskAll4 mT) (hTb : maskAll4 mTb)
    (hdR : P.rtm.mlp.drop = 0) (hdS : P.stm.mlp.drop = 0)
    (hdT : P.ttm.mlp.drop = 0) (x : ℕ → ℕ → ℚ) :
    eegForward gelu sqF expF P mR mS mT x
      = eegForward gelu sqF expF P mRb mSb mTb x := by
  unfold eegForward
  rw [rtmForward_mask_eq gelu sqF P.rtm hdR mR mRb hR hRb,
    stmForward_mask_eq gelu sqF P.stm hdS mS mSb hS hSb,
    ttmForward_mask_eq gelu sqF P.ttm hdT mT mTb hT hTb]

def trueMask5 : ℕ → ℕ → ℕ → ℕ → ℕ → Bool := fun _ _ _ _ _ => true

def trueMask5b : ℕ → ℕ → ℕ → ℕ → ℕ → Bool := fun a _ _ _ _ => a ≤ a + 1

def trueMask4 : ℕ → ℕ → ℕ → ℕ → Bool := fun _ _ _ _ => true

def trueMask4b : ℕ → ℕ → ℕ → ℕ → Bool := fun a _ _ _ => a ≤ a + 1

/-- A concrete one-of-everything TTM parameter set. -/
def ttmP0 : TTMParams :=
  ⟨1, 1, 1, 1, 1, 1, 1, 1, 1, fun _ _ => 0, fun _ _ => 0, fun _ => 0,
    fun _ _ _ _ _ => 0, fun _ _ _ => 0, fun _ => 1, fun _ => 0, fun _ => 1,
    fun _ => 0, fun _ => 1, fun _ => 0, mlpP0⟩

def decP0 : DecParams :=
  ⟨1, 1, 1, 1, fun _ => 0, 0, fun _ _ => 0, fun _ => 0, fun _ _ => 0,
    fun _ => 0, fun _ _ => 0, fun _ => 0⟩

def eegP0 : EEGParams := ⟨odcmP0, attnP2, attnP2, ttmP0, decP0, 2⟩

/-- Witness for `c9_forward_deterministic`: two different (but all-keeping)
dropout draw families on concrete parameters and the zero input. -/
theorem c9_forward_deterministic_witness :
    (maskAll5 trueMask5 ∧ maskAll5 trueMask5b ∧ maskAll4 trueMask4
      ∧ maskAll4 trueMask4b ∧ eegP0.rtm.mlp.drop = 0 ∧ eegP0.stm.mlp.drop = 0
      ∧ eegP0.ttm.mlp.drop = 0)
    ∧ eegForward (fun r => r) (fun r => r) (fun r => r) eegP0
        trueMask5 trueMask5 trueMask4 (fun _ _ => 0)
      = eegForward (fun r => r) (fun r => r) (fun r => r) eegP0
        trueMask5b trueMask5b trueMask4b (fun _ _ => 0) :=
  ⟨⟨fun _ _ _ _ _ => rfl, fun a _ _ _ _ => by simp [trueMask5b],
      fun _ _ _ _ => rfl, fun a _ _ _ => by simp [trueMask4b], rfl, rfl, rfl⟩,
    c9_forward_deterministic (fun r => r) (fun r => r) (fun r => r) eegP0
      trueMask5 trueMask5b trueMask5 trueMask5b trueMask4 trueMask4b
      (fun _ _ _ _ _ => rfl) (fun a _ _ _ _ => by simp [trueMask5b])
      (fun _ _ _ _ _ => rfl) (fun a _ _ _ _ => by simp [trueMask5b])
      (fun _ _ _ _ => rfl) (fun a _ _ _ => by simp [trueMask4b])
      rfl rfl rfl (fun _ _ => 0)⟩

/-! ## Softmax normalization of the end-to-end output (claim C6) -/

lemma softmaxF_nonneg_sum (expF : ℚ → ℚ) (n : ℕ) (x : ℕ → ℚ)
    (hexp : ∀ r, 0 < expF r) (hn : 0 < n) :
    (∀ q, 0 ≤ softmaxF expF n x q)
    ∧ ∑ q in Finset.range n, softmaxF expF n x q = 1 := by
  have hS : 0 < ∑ t in Finset.range n, expF (x t) :=
    Finset.sum_pos (fun t _ => hexp (x t))
      (Finset.nonempty_range_iff.mpr (by omega))
  constructor
  · intro q
    exact div_nonneg (le_of_lt (hexp (x q))) (le_of_lt hS)
  · unfold softmaxF
    rw [← Finset.sum_div]
    exact div_self (ne_of_gt hS)

/-- Claim C6: the end-to-end forward pass ends with `torch.softmax(x, dim=1)`
applied by the top level to the decoder's single logits row (`decForward`
applies no activation before it: its last stage is the affine `fc` layer), so
for every parameter set, every dropout draw family and every input, and for
every exponential routine `expF` with positive values (as the float `exp` is),
all `num_cls` entries of the `[1, num_cls]` output row are non-negative and
they sum to exactly 1 — in particular within the claimed `1e-5` tolerance. -/
theorem c6_softmax_output (gelu sqF expF : ℚ → ℚ) (P : EEGParams)
    (mR mS : ℕ → ℕ → ℕ → ℕ → ℕ → Bool) (mT : ℕ → ℕ → ℕ → ℕ → Bool)
    (x : ℕ → ℕ → ℚ) (hexp : ∀ r, 0 < expF r) (hn : 0 < P.ncls) :
    (∀ q, 0 ≤ eegForward gelu sqF expF P mR mS mT x q)
    ∧ ∑ q in Finset.range P.ncls, eegForward gelu sqF expF P mR mS mT x q = 1 := by
  unfold eegForward
  exact softmaxF_nonneg_sum expF P.ncls
    (decForward P.dec
      (ttmForward gelu sqF P.ttm mT
        (stmForward gelu sqF P.stm mS
          (rtmForward gelu sqF P.rtm mR
            (odcmF P.odcm (fun ch t => x t ch)))))) hexp hn

/-- Witness for `c6_softmax_output` on concrete parameters (`ncls = 2`), the
constant-1 exponential routine, all-keeping dropout draws and the zero input. -/
theorem c6_softmax_output_witness :
    ((∀ r : ℚ, (0 : ℚ) < 1) ∧ 0 < eegP0.ncls)
    ∧ ((∀ q, 0 ≤ eegForward (fun r => r) (fun r => r) (fun _ => 1) eegP0
          trueMask5 trueMask5 trueMask4 (fun _ _ => 0) q)
      ∧ ∑ q in Finset.range eegP0.ncls,
          eegForward (fun r => r) (fun r => r) (fun _ => 1) eegP0
            trueMask5 trueMask5 trueMask4 (fun _ _ => 0) q = 1) :=
  ⟨⟨fun _ => one_pos, by decide⟩,
    c6_softmax_output (fun r => r) (fun r => r) (fun _ => 1) eegP0
      trueMask5 trueMask5 trueMask4 (fun _ _ => 0) (fun _ => one_pos) (by decide)⟩
